import Mathlib

/-!
# Gigaview tile-pyramid core: formal model

Shallow embedding of the gigaview tile-rendering core:
the tile coordinate model (`internal/image_renderer/renderer.go`),
the cache backends (`internal/cache`), and the warmup scheduler
(`cmd` main, `warmupTiles`).  Go `int` values that the code keeps
non-negative are modelled as `Nat`; values that may go negative
(request coordinates, configured capacities) are modelled as `Int`.
The Go float64 arithmetic in the tile math is exact for realistic
dimensions (products of integers with powers of two below 2^53), so it
is modelled by exact integer arithmetic.
-/

set_option autoImplicit false

namespace Gigaview

/-! ## Data model: `TileKey` (src/internal/cache/interface.go) -/

/-- `TileKey` from `internal/cache/interface.go`: the composite cache key
(image identifier, tile edge, max zoom, zoom, column, row, format).
Value equality, as in Go. -/
structure TileKey where
  imageID : String
  tileEdge : Int
  maxZoomField : Int
  z : Int
  x : Int
  y : Int
  format : String
deriving DecidableEq, Repr

/-- `ImageInfo`: the dimensions part of the catalog's image descriptor
(`image_list.ImageInfo`), as consumed by the renderer. -/
structure ImageInfo where
  width : Nat
  height : Nat
deriving DecidableEq, Repr

/-! ## Tile coordinate model (renderer.go) -/

/-- `CalculateMaxZoom` (renderer.go lines 40-48).  The Go code computes
`int(math.Ceil(math.Log2(max(w,h)/256.0)))` in float64 and clamps
negative results to 0.  For integer dimensions (below 2^53, where the
float64 division by 256 and the comparison against powers of two are
exact) the clamped value is the least `k ≥ 0` with
`max w h ≤ 256 * 2 ^ k`, which is `Nat.clog 2 ⌈max w h / 256⌉`;
the ceiling division is written `(m + 255) / 256` on `Nat`. -/
def calculateMaxZoom (width height : Nat) : Nat :=
  Nat.clog 2 ((max width height + 255) / 256)

/-- Ceiling division by 256 against a power of two: `⌈m/256⌉ ≤ 2^k ↔ m ≤ 256·2^k`. -/
theorem ceilDiv256_le_pow_iff (m k : Nat) :
    (m + 255) / 256 ≤ 2 ^ k ↔ m ≤ 256 * 2 ^ k := by
  rw [Nat.div_le_iff_le_mul_add_pred (by norm_num)]
  omega

/-- `calculateMaxZoom w h` is the least `k` with `max w h ≤ 256 * 2 ^ k`. -/
theorem calculateMaxZoom_le_iff (w h k : Nat) :
    calculateMaxZoom w h ≤ k ↔ max w h ≤ 256 * 2 ^ k := by
  rw [calculateMaxZoom, ← Nat.le_pow_iff_clog_le (by norm_num), ceilDiv256_le_pow_iff]

/-- C1: for every image with positive dimensions, `CalculateMaxZoom` is
total and equals `ceil(log2(max(w,h)/256))` clamped to `≥ 0` — stated
as its Galois characterization (least `k` with `256·2^k ≥ max w h`);
it returns 0 whenever `max w h ≤ 256`, is monotone non-decreasing in
`max w h`, and when positive satisfies `256·2^MZ ≥ max w h` and
`256·2^(MZ-1) < max w h`. -/
theorem maxZoom_spec (w h : Nat) (hw : 0 < w) (hh : 0 < h) :
    (∀ k, calculateMaxZoom w h ≤ k ↔ max w h ≤ 256 * 2 ^ k) ∧
    (max w h ≤ 256 → calculateMaxZoom w h = 0) ∧
    (∀ w' h', max w h ≤ max w' h' →
      calculateMaxZoom w h ≤ calculateMaxZoom w' h') ∧
    (0 < calculateMaxZoom w h →
      max w h ≤ 256 * 2 ^ calculateMaxZoom w h ∧
      256 * 2 ^ (calculateMaxZoom w h - 1) < max w h) := by
  refine ⟨fun k => calculateMaxZoom_le_iff w h k, ?_, ?_, ?_⟩
  · intro hsmall
    have h0 : calculateMaxZoom w h ≤ 0 := by
      rw [calculateMaxZoom_le_iff]; simpa using hsmall
    omega
  · intro w' h' hle
    exact Nat.clog_mono_right 2 (Nat.div_le_div_right (by omega))
  · intro hpos
    constructor
    · exact (calculateMaxZoom_le_iff w h _).mp le_rfl
    · by_contra hcon
      push_neg at hcon
      have := (calculateMaxZoom_le_iff w h (calculateMaxZoom w h - 1)).mpr hcon
      omega

/-- Pin a concrete value of `calculateMaxZoom` from its characterization
(used because `Nat.clog` is defined by well-founded recursion and does
not reduce definitionally). -/
theorem calculateMaxZoom_eq (w h k : Nat) (h1 : max w h ≤ 256 * 2 ^ k)
    (h2 : k = 0 ∨ ¬max w h ≤ 256 * 2 ^ (k - 1)) :
    calculateMaxZoom w h = k := by
  have hle := (calculateMaxZoom_le_iff w h k).mpr h1
  rcases h2 with rfl | h2
  · omega
  · have hgt : ¬calculateMaxZoom w h ≤ k - 1 := fun hcon =>
      h2 ((calculateMaxZoom_le_iff w h (k - 1)).mp hcon)
    omega

/-- C1 witness: the characterization instantiated at a concrete
10000 × 8000 image (the spec's own worked example, max zoom 6). -/
theorem maxZoom_spec_witness :
    (0 < 10000 ∧ 0 < 8000) ∧
    ((∀ k, calculateMaxZoom 10000 8000 ≤ k ↔ max 10000 8000 ≤ 256 * 2 ^ k) ∧
      (max 10000 8000 ≤ 256 → calculateMaxZoom 10000 8000 = 0) ∧
      (∀ w' h', max 10000 8000 ≤ max w' h' →
        calculateMaxZoom 10000 8000 ≤ calculateMaxZoom w' h') ∧
      (0 < calculateMaxZoom 10000 8000 →
        max 10000 8000 ≤ 256 * 2 ^ calculateMaxZoom 10000 8000 ∧
        256 * 2 ^ (calculateMaxZoom 10000 8000 - 1) < max 10000 8000)) :=
  ⟨⟨by decide, by decide⟩, maxZoom_spec 10000 8000 (by decide) (by decide)⟩

/-! ## Tile bounds and the `RenderTile` outcome (renderer.go lines 50-160) -/

/-- `pixelsPerTile` (renderer.go line 98): `256 * 2^(maxZoom - z)` source
pixels per tile at zoom `z ≤ maxZoom` (`z` may be negative, the code
never rejects it, so the exponent is `(maxZoom - z).toNat`). -/
def pixelsPerTile (maxZoom : Nat) (z : Int) : Nat :=
  256 * 2 ^ (maxZoom - z).toNat

/-- Tile start coordinate (renderer.go lines 102-103): `index * pixelsPerTile`. -/
def tileStart (i p : Nat) : Nat := i * p

/-- Tile end coordinate (renderer.go lines 104-105):
`min (start + pixelsPerTile) dim`, clamping edge tiles to the image. -/
def tileEnd (i p dim : Nat) : Nat := min (i * p + p) dim

/-- Number of grid tiles along one dimension: `ceil(dim / p)`
(`warmupTiles`, part_001 lines 148-149; exact for float64 on realistic sizes). -/
def tilesAtZoom (dim p : Nat) : Nat := (dim + p - 1) / p

/-- Outcome kinds of `RenderTile` for a known image, per the spec's
taxonomy: `outOfRange` collects the "zoom level exceeds max zoom" and
"invalid tile bounds" failures, `codecFailure` the vips errors. -/
inductive ROutcome where
  | ok
  | outOfRange
  | codecFailure
deriving DecidableEq, Repr

/-- `RenderTile` (renderer.go lines 50-160) for an image known to the
catalog, on a cache miss, with the codec failing exactly on
extract rectangles that leave the image (negative offsets; the right
and bottom edges are already clamped).  Follows the code's order:
the `z > maxZoom` check, then the clamped bounds with the
`width <= 0 || height <= 0` check, then `ExtractArea`.  Note the code
has no `z < 0` check. -/
def renderClassify (w h : Nat) (z x y : Int) : ROutcome :=
  let maxZoom : Int := calculateMaxZoom w h
  if maxZoom < z then ROutcome.outOfRange
  else
    let p : Int := pixelsPerTile (calculateMaxZoom w h) z
    let startX := x * p
    let startY := y * p
    let endX := min (startX + p) (w : Int)
    let endY := min (startY + p) (h : Int)
    if endX - startX ≤ 0 ∨ endY - startY ≤ 0 then ROutcome.outOfRange
    else if startX < 0 ∨ startY < 0 then ROutcome.codecFailure
    else ROutcome.ok

/-- The clamped tile rectangle along one dimension is empty:
`min (i*p + p) dim - i*p ≤ 0` (renderer.go lines 102-109), on `Int`. -/
def clampedEmpty (i : Int) (p dim : Nat) : Prop :=
  min (i * (p : Int) + (p : Int)) (dim : Int) - i * (p : Int) ≤ 0

instance (i : Int) (p dim : Nat) : Decidable (clampedEmpty i p dim) := by
  unfold clampedEmpty; infer_instance

theorem pixelsPerTile_pos (maxZoom : Nat) (z : Int) :
    0 < pixelsPerTile maxZoom z := by
  unfold pixelsPerTile; positivity

/-- A column index inside the grid covers pixels before the image edge:
`n < ceil(w/p) ↔ n * p < w` (for `p > 0`). -/
theorem lt_tilesAtZoom_iff (w p n : Nat) (hp : 0 < p) :
    n < tilesAtZoom w p ↔ n * p < w := by
  unfold tilesAtZoom
  constructor
  · intro hlt
    have h1 : n + 1 ≤ (w + p - 1) / p := hlt
    have h2 : (n + 1) * p ≤ w + p - 1 := (Nat.le_div_iff_mul_le hp).mp h1
    have h3 : (n + 1) * p = n * p + p := by ring
    omega
  · intro hlt
    have h2 : (n + 1) * p ≤ w + p - 1 := by
      have h3 : (n + 1) * p = n * p + p := by ring
      omega
    exact Nat.lt_of_lt_of_le (Nat.lt_succ_self n) ((Nat.le_div_iff_mul_le hp).mpr h2)

/-- C2 counterexample: on a 512×512 image (maxZoom = 1) the request
`z = -1, x = 0, y = 0` has its zoom outside `[0, maxZoom]`, yet
`RenderTile` does not fail with OutOfRange — the code never checks
`z < 0` and renders the tile successfully. -/
theorem renderTile_oor_counterexample :
    ((-1 : Int) < 0 ∨ (calculateMaxZoom 512 512 : Int) < -1) ∧
    renderClassify 512 512 (-1) 0 0 = ROutcome.ok := by
  have hMZ : calculateMaxZoom 512 512 = 1 :=
    calculateMaxZoom_eq 512 512 1 (by decide) (Or.inr (by decide))
  refine ⟨Or.inl (by decide), ?_⟩
  simp only [renderClassify, pixelsPerTile, hMZ]
  decide

/-- C2 (amended): for every known image, `RenderTile` fails with
OutOfRange exactly when `z > maxZoom` or the clamped tile rectangle is
empty (the code never rejects `z < 0`); every `(z, x, y)` of the valid
pyramid — `0 ≤ z ≤ maxZoom` and grid indices `x < ceil(w/p)`,
`y < ceil(h/p)` — succeeds with no failure at all; and beyond the grid
on the non-negative side the failure is OutOfRange, not another kind. -/
theorem renderTile_outcome_spec (w h : Nat) (hw : 0 < w) (hh : 0 < h)
    (z x y : Int) :
    (renderClassify w h z x y = ROutcome.outOfRange ↔
      ((calculateMaxZoom w h : Int) < z ∨
        clampedEmpty x (pixelsPerTile (calculateMaxZoom w h) z) w ∨
        clampedEmpty y (pixelsPerTile (calculateMaxZoom w h) z) h)) ∧
    (∀ zn xn yn : Nat, zn ≤ calculateMaxZoom w h →
      xn < tilesAtZoom w (pixelsPerTile (calculateMaxZoom w h) zn) →
      yn < tilesAtZoom h (pixelsPerTile (calculateMaxZoom w h) zn) →
      renderClassify w h zn xn yn = ROutcome.ok) ∧
    (∀ zn xn yn : Nat, zn ≤ calculateMaxZoom w h →
      (tilesAtZoom w (pixelsPerTile (calculateMaxZoom w h) zn) ≤ xn ∨
        tilesAtZoom h (pixelsPerTile (calculateMaxZoom w h) zn) ≤ yn) →
      renderClassify w h zn xn yn = ROutcome.outOfRange) := by
  refine ⟨?_, ?_, ?_⟩
  · simp only [renderClassify, clampedEmpty]
    split_ifs with h1 h2 h3
    · exact iff_of_true rfl (Or.inl h1)
    · exact iff_of_true rfl (Or.inr h2)
    · exact iff_of_false (by simp) (by tauto)
    · exact iff_of_false (by simp) (by tauto)
  · intro zn xn yn hz hx hy
    have hp := pixelsPerTile_pos (calculateMaxZoom w h) zn
    have hxw : xn * pixelsPerTile (calculateMaxZoom w h) zn < w :=
      (lt_tilesAtZoom_iff _ _ _ hp).mp hx
    have hyh : yn * pixelsPerTile (calculateMaxZoom w h) zn < h :=
      (lt_tilesAtZoom_iff _ _ _ hp).mp hy
    have hxw' : (xn : Int) * (pixelsPerTile (calculateMaxZoom w h) zn : Int) <
        (w : Int) := by exact_mod_cast hxw
    have hyh' : (yn : Int) * (pixelsPerTile (calculateMaxZoom w h) zn : Int) <
        (h : Int) := by exact_mod_cast hyh
    have hx0 : (0 : Int) ≤ (xn : Int) *
        (pixelsPerTile (calculateMaxZoom w h) zn : Int) := by positivity
    have hy0 : (0 : Int) ≤ (yn : Int) *
        (pixelsPerTile (calculateMaxZoom w h) zn : Int) := by positivity
    simp only [renderClassify]
    split_ifs with h1 h2 h3
    · exact absurd h1 (by exact_mod_cast not_lt.mpr (by exact_mod_cast hz))
    · exfalso
      rcases h2 with h2 | h2 <;> omega
    · exfalso
      rcases h3 with h3 | h3 <;> omega
    · rfl
  · intro zn xn yn hz hxy
    have hp := pixelsPerTile_pos (calculateMaxZoom w h) zn
    have hempty :
        min ((xn : Int) * (pixelsPerTile (calculateMaxZoom w h) zn : Int) +
            (pixelsPerTile (calculateMaxZoom w h) zn : Int)) (w : Int) -
          (xn : Int) * (pixelsPerTile (calculateMaxZoom w h) zn : Int) ≤ 0 ∨
        min ((yn : Int) * (pixelsPerTile (calculateMaxZoom w h) zn : Int) +
            (pixelsPerTile (calculateMaxZoom w h) zn : Int)) (h : Int) -
          (yn : Int) * (pixelsPerTile (calculateMaxZoom w h) zn : Int) ≤ 0 := by
      rcases hxy with hx | hy
      · have hxw : w ≤ xn * pixelsPerTile (calculateMaxZoom w h) zn := by
          by_contra hcon
          push_neg at hcon
          exact absurd ((lt_tilesAtZoom_iff _ _ _ hp).mpr hcon) (not_lt.mpr hx)
        have hxw' : (w : Int) ≤ (xn : Int) *
            (pixelsPerTile (calculateMaxZoom w h) zn : Int) := by exact_mod_cast hxw
        left
        omega
      · have hyh : h ≤ yn * pixelsPerTile (calculateMaxZoom w h) zn := by
          by_contra hcon
          push_neg at hcon
          exact absurd ((lt_tilesAtZoom_iff _ _ _ hp).mpr hcon) (not_lt.mpr hy)
        have hyh' : (h : Int) ≤ (yn : Int) *
            (pixelsPerTile (calculateMaxZoom w h) zn : Int) := by exact_mod_cast hyh
        right
        omega
    simp only [renderClassify]
    split_ifs with h1 <;> rfl

/-- C2 witness: the outcome characterization instantiated on a
concrete 512 × 512 image at `z = x = y = 0`. -/
theorem renderTile_outcome_spec_witness :
    (0 < 512 ∧ 0 < 512) ∧
    ((renderClassify 512 512 0 0 0 = ROutcome.outOfRange ↔
      ((calculateMaxZoom 512 512 : Int) < 0 ∨
        clampedEmpty 0 (pixelsPerTile (calculateMaxZoom 512 512) 0) 512 ∨
        clampedEmpty 0 (pixelsPerTile (calculateMaxZoom 512 512) 0) 512)) ∧
      (∀ zn xn yn : Nat, zn ≤ calculateMaxZoom 512 512 →
        xn < tilesAtZoom 512 (pixelsPerTile (calculateMaxZoom 512 512) zn) →
        yn < tilesAtZoom 512 (pixelsPerTile (calculateMaxZoom 512 512) zn) →
        renderClassify 512 512 zn xn yn = ROutcome.ok) ∧
      (∀ zn xn yn : Nat, zn ≤ calculateMaxZoom 512 512 →
        (tilesAtZoom 512 (pixelsPerTile (calculateMaxZoom 512 512) zn) ≤ xn ∨
          tilesAtZoom 512 (pixelsPerTile (calculateMaxZoom 512 512) zn) ≤ yn) →
        renderClassify 512 512 zn xn yn = ROutcome.outOfRange)) :=
  ⟨⟨by decide, by decide⟩,
    renderTile_outcome_spec 512 512 (by decide) (by decide) 0 0 0⟩

/-- One dimension of the tile grid partitions `[0, dim)`: every pixel
coordinate lies in the clamped range of exactly one grid index. -/
theorem tile_cover_unique (dim p : Nat) (hp : 0 < p) (q : Nat) (hq : q < dim) :
    ∃! i : Nat, i < tilesAtZoom dim p ∧ tileStart i p ≤ q ∧ q < tileEnd i p dim := by
  refine ⟨q / p, ⟨?_, ?_, ?_⟩, ?_⟩
  · rw [lt_tilesAtZoom_iff dim p _ hp]
    exact Nat.lt_of_le_of_lt (Nat.div_mul_le_self q p) hq
  · exact Nat.div_mul_le_self q p
  · unfold tileEnd
    rw [lt_min_iff]
    refine ⟨?_, hq⟩
    have h1 := Nat.div_add_mod q p
    have h2 := Nat.mod_lt q hp
    have h3 : p * (q / p) = q / p * p := Nat.mul_comm p (q / p)
    omega
  · rintro i ⟨hi, h1, h2⟩
    simp only [tileStart, tileEnd] at h1 h2
    have h2' : q < i * p + p := lt_of_lt_of_le h2 (min_le_left _ _)
    have hub : i ≤ q / p := (Nat.le_div_iff_mul_le hp).mpr h1
    have hlb : q / p < i + 1 := by
      rw [Nat.div_lt_iff_lt_mul hp]
      have : i * p + p = (i + 1) * p := by ring
      omega
    omega

/-- C3: at every zoom `z ≤ maxZoom` of a `w × h` image the clamped tile
rectangles `[x·p, min(x·p + p, w)) × [y·p, min(y·p + p, h))` over the
grid `x < ceil(w/p)`, `y < ceil(h/p)` partition `[0,w) × [0,h)`: every
pixel lies in exactly one rectangle — no gaps, no overlaps. -/
theorem tile_partition (w h : Nat) (hw : 0 < w) (hh : 0 < h) (z : Nat)
    (hz : z ≤ calculateMaxZoom w h) (px py : Nat) (hpx : px < w) (hpy : py < h) :
    ∃! t : Nat × Nat,
      t.1 < tilesAtZoom w (pixelsPerTile (calculateMaxZoom w h) z) ∧
      t.2 < tilesAtZoom h (pixelsPerTile (calculateMaxZoom w h) z) ∧
      tileStart t.1 (pixelsPerTile (calculateMaxZoom w h) z) ≤ px ∧
      px < tileEnd t.1 (pixelsPerTile (calculateMaxZoom w h) z) w ∧
      tileStart t.2 (pixelsPerTile (calculateMaxZoom w h) z) ≤ py ∧
      py < tileEnd t.2 (pixelsPerTile (calculateMaxZoom w h) z) h := by
  have hp := pixelsPerTile_pos (calculateMaxZoom w h) z
  obtain ⟨ix, hix, hixu⟩ := tile_cover_unique w _ hp px hpx
  obtain ⟨iy, hiy, hiyu⟩ := tile_cover_unique h _ hp py hpy
  refine ⟨(ix, iy), ⟨hix.1, hiy.1, hix.2.1, hix.2.2, hiy.2.1, hiy.2.2⟩, ?_⟩
  rintro ⟨i, j⟩ ⟨h1, h2, h3, h4, h5, h6⟩
  have hxeq := hixu i ⟨h1, h3, h4⟩
  have hyeq := hiyu j ⟨h2, h5, h6⟩
  simp [hxeq, hyeq]

/-- C3 witness: the partition property instantiated on a 512 × 512
image at zoom 0, pixel (300, 17). -/
theorem tile_partition_witness :
    (0 < 512 ∧ 0 < 512 ∧ 0 ≤ calculateMaxZoom 512 512 ∧ 300 < 512 ∧ 17 < 512) ∧
    (∃! t : Nat × Nat,
      t.1 < tilesAtZoom 512 (pixelsPerTile (calculateMaxZoom 512 512) 0) ∧
      t.2 < tilesAtZoom 512 (pixelsPerTile (calculateMaxZoom 512 512) 0) ∧
      tileStart t.1 (pixelsPerTile (calculateMaxZoom 512 512) 0) ≤ 300 ∧
      300 < tileEnd t.1 (pixelsPerTile (calculateMaxZoom 512 512) 0) 512 ∧
      tileStart t.2 (pixelsPerTile (calculateMaxZoom 512 512) 0) ≤ 17 ∧
      17 < tileEnd t.2 (pixelsPerTile (calculateMaxZoom 512 512) 0) 512) :=
  ⟨⟨by decide, by decide, Nat.zero_le _, by decide, by decide⟩,
    tile_partition 512 512 (by decide) (by decide) 0 (Nat.zero_le _) 300 17
      (by decide) (by decide)⟩

/-! ## Bounded in-memory LRU cache (src/unnamed/part_004, `MemoryCache`) -/

/-- Byte payload of a cached tile (Go `[]byte`). -/
abbrev TileBytes := List Nat

/-- `MemoryCache` (part_004 lines 13-19): capacity `maxSize` (a Go
`int`, possibly non-positive) and the recency list, most-recently-used
first.  Go keeps a doubly-linked `lruList` plus an index map `items`
whose key set always equals the keys on the list; the list of
key/value pairs carries the whole state. -/
structure MemoryCache where
  maxSize : Int
  entries : List (TileKey × TileBytes)
deriving DecidableEq, Repr

/-- `NewMemoryCache` (part_004 lines 22-28): empty cache, capacity kept
as given (no validation of non-positive values). -/
def NewMemoryCache (maxSize : Int) : MemoryCache :=
  { maxSize := maxSize, entries := [] }

namespace MemoryCache

/-- Key match used by the `items` map lookups (Go map keying on
`TileKey` value equality). -/
def keyIs (key : TileKey) : TileKey × TileBytes → Bool :=
  fun e => e.1 == key

/-- `Has` (part_004 lines 30-36): membership in the index map. -/
def has (c : MemoryCache) (key : TileKey) : Bool :=
  c.entries.any (keyIs key)

/-- The value currently stored under `key`, if any. -/
def lookup (c : MemoryCache) (key : TileKey) : Option TileBytes :=
  (c.entries.find? (keyIs key)).map Prod.snd

/-- `Get` (part_004 lines 38-49): on hit, return the stored bytes and
move the entry to the front of the recency list; on miss, return
nothing and leave the state unchanged. -/
def get (c : MemoryCache) (key : TileKey) : Option TileBytes × MemoryCache :=
  match c.entries.find? (keyIs key) with
  | none => (none, c)
  | some e =>
      (some e.2,
        { maxSize := c.maxSize,
          entries := (e.1, e.2) :: c.entries.eraseP (keyIs key) })

/-- `Set` (part_004 lines 51-72): if the key is present, replace the
value and move the entry to the front; otherwise, when
`lruList.Len() >= maxSize`, remove the back (least-recently-used)
element if the list is non-empty, then push the new entry to the
front.  `dropLast [] = []` matches Go's `oldest != nil` guard. -/
def set (c : MemoryCache) (key : TileKey) (value : TileBytes) : MemoryCache :=
  if c.entries.any (keyIs key) then
    { maxSize := c.maxSize,
      entries := (key, value) :: c.entries.eraseP (keyIs key) }
  else
    { maxSize := c.maxSize,
      entries := (key, value) ::
        (if (c.entries.length : Int) ≥ c.maxSize then c.entries.dropLast
         else c.entries) }

/-- `Clear` (part_004 lines 74-80): drop everything, keep the capacity. -/
def clear (c : MemoryCache) : MemoryCache :=
  { maxSize := c.maxSize, entries := [] }

/-- Inserting a list of key/value pairs by successive `Set` calls. -/
def insertAll (c : MemoryCache) (kvs : List (TileKey × TileBytes)) : MemoryCache :=
  kvs.foldl (fun s kv => s.set kv.1 kv.2) c

end MemoryCache

/-- One client operation against the in-memory cache. -/
inductive CacheOp where
  | get (key : TileKey)
  | set (key : TileKey) (value : TileBytes)
  | clear
deriving DecidableEq, Repr

/-- Apply one operation, keeping only the state. -/
def MemoryCache.apply (c : MemoryCache) : CacheOp → MemoryCache
  | CacheOp.get k => (c.get k).2
  | CacheOp.set k v => c.set k v
  | CacheOp.clear => c.clear

/-- Apply a sequence of operations. -/
def MemoryCache.applyAll (c : MemoryCache) (ops : List CacheOp) : MemoryCache :=
  ops.foldl MemoryCache.apply c

/-! ### Basic facts about the LRU operations -/

/-- A list is a permutation of its first `find?` match consed onto the
`eraseP` remainder. -/
theorem perm_cons_eraseP_of_find? {α : Type} (p : α → Bool) (l : List α) (e : α)
    (hf : l.find? p = some e) : l.Perm (e :: l.eraseP p) := by
  induction l with
  | nil => simp at hf
  | cons a t ih =>
    cases ha : p a with
    | true =>
      rw [List.find?_cons_of_pos t ha] at hf
      cases hf
      rw [List.eraseP_cons_of_pos ha]
    | false =>
      have ha' : ¬p a := by simp [ha]
      rw [List.find?_cons_of_neg t ha'] at hf
      rw [List.eraseP_cons_of_neg ha']
      exact (List.Perm.cons a (ih hf)).trans (List.Perm.swap e a _)

namespace MemoryCache

theorem maxSize_get (c : MemoryCache) (k : TileKey) :
    (c.get k).2.maxSize = c.maxSize := by
  unfold get
  split <;> rfl

theorem maxSize_set (c : MemoryCache) (k : TileKey) (v : TileBytes) :
    (c.set k v).maxSize = c.maxSize := by
  unfold set
  split <;> rfl

theorem maxSize_apply (c : MemoryCache) (op : CacheOp) :
    (c.apply op).maxSize = c.maxSize := by
  cases op with
  | get k => exact maxSize_get c k
  | set k v => exact maxSize_set c k v
  | clear => rfl

theorem length_get (c : MemoryCache) (k : TileKey) :
    (c.get k).2.entries.length = c.entries.length := by
  unfold get
  split
  · rfl
  · rename_i e hf
    have hperm := perm_cons_eraseP_of_find? (keyIs k) c.entries e hf
    exact hperm.length_eq.symm

theorem length_set_le (c : MemoryCache) (k : TileKey) (v : TileBytes) (C : Int)
    (hms : c.maxSize = C) (hlen : (c.entries.length : Int) ≤ max C 1) :
    ((c.set k v).entries.length : Int) ≤ max C 1 := by
  have hmax : (0 : Int) ≤ max C 1 := le_trans (by norm_num) (le_max_right C 1)
  unfold set
  split
  · rename_i hpresent
    obtain ⟨e, hmem, hp⟩ := List.any_eq_true.mp hpresent
    have herase := List.length_eraseP_of_mem hmem hp
    have hpos : 0 < c.entries.length :=
      List.length_pos.mpr (List.ne_nil_of_mem hmem)
    simp only [List.length_cons]
    omega
  · simp only [List.length_cons]
    split
    · rename_i hge
      rw [hms] at hge
      have hdl := List.length_dropLast c.entries
      omega
    · rename_i hlt
      rw [hms] at hlt
      push_neg at hlt
      omega

theorem length_apply_le (c : MemoryCache) (op : CacheOp) (C : Int)
    (hms : c.maxSize = C) (hlen : (c.entries.length : Int) ≤ max C 1) :
    ((c.apply op).entries.length : Int) ≤ max C 1 := by
  have hmax : (0 : Int) ≤ max C 1 := le_trans (by norm_num) (le_max_right C 1)
  cases op with
  | get k => rw [apply, length_get]; exact hlen
  | set k v => exact length_set_le c k v C hms hlen
  | clear => simpa [apply, clear] using hmax

theorem applyAll_maxSize (ops : List CacheOp) (c : MemoryCache) :
    (c.applyAll ops).maxSize = c.maxSize := by
  induction ops generalizing c with
  | nil => rfl
  | cons op t ih =>
    show ((c.apply op).applyAll t).maxSize = c.maxSize
    rw [ih, maxSize_apply]

theorem applyAll_length_le (ops : List CacheOp) (c : MemoryCache) (C : Int)
    (hms : c.maxSize = C) (hlen : (c.entries.length : Int) ≤ max C 1) :
    ((c.applyAll ops).entries.length : Int) ≤ max C 1 := by
  induction ops generalizing c with
  | nil => exact hlen
  | cons op t ih =>
    show (((c.apply op).applyAll t).entries.length : Int) ≤ max C 1
    exact ih (c.apply op) (by rw [maxSize_apply, hms])
      (length_apply_le c op C hms hlen)

theorem lookup_set_self (c : MemoryCache) (k : TileKey) (v : TileBytes) :
    (c.set k v).lookup k = some v := by
  have hself : keyIs k (k, v) = true := by simp [keyIs]
  unfold set lookup
  split <;>
    · dsimp only
      rw [List.find?_cons_of_pos _ hself]
      rfl

theorem set_entries_of_small (c : MemoryCache) (k : TileKey) (v : TileBytes)
    (hC : c.maxSize ≤ 0) (hlen : c.entries.length ≤ 1) :
    (c.set k v).entries = [(k, v)] := by
  unfold set
  split
  · rename_i hpresent
    obtain ⟨e, hmem, hp⟩ := List.any_eq_true.mp hpresent
    match hent : c.entries with
    | [] => rw [hent] at hmem; simp at hmem
    | [a] =>
      rw [hent] at hmem
      have he : e = a := by simpa using hmem
      subst he
      dsimp only
      rw [List.eraseP_cons_of_pos hp]
    | a :: b :: t => rw [hent] at hlen; simp at hlen
  · split
    · match hent : c.entries with
      | [] => rfl
      | [a] => rfl
      | a :: b :: t => rw [hent] at hlen; simp at hlen
    · rename_i hlt
      push_neg at hlt
      exfalso
      omega

end MemoryCache

/-- C9: for every capacity `C` handed to `NewMemoryCache` and every
operation sequence, the number of stored entries never exceeds
`max C 1`; in particular a cache built with `C ≤ 0` does not reject
writes — a `Set` always leaves its key readable, and with `C ≤ 0` the
cache holds exactly the one entry just written, having evicted any
previous one. -/
theorem memoryCache_capacity (C : Int) (ops : List CacheOp) :
    (((NewMemoryCache C).applyAll ops).entries.length : Int) ≤ max C 1 ∧
    (∀ k v, (((NewMemoryCache C).applyAll ops).set k v).lookup k = some v) ∧
    (C ≤ 0 → ∀ k v,
      (((NewMemoryCache C).applyAll ops).set k v).entries = [(k, v)]) := by
  have hmax0 : (0 : Int) ≤ max C 1 := le_trans (by norm_num) (le_max_right C 1)
  have hlen := MemoryCache.applyAll_length_le ops (NewMemoryCache C) C rfl
    (by simpa [NewMemoryCache] using hmax0)
  refine ⟨hlen, fun k v => MemoryCache.lookup_set_self _ k v, fun hC k v => ?_⟩
  refine MemoryCache.set_entries_of_small _ k v ?_ ?_
  · rw [MemoryCache.applyAll_maxSize]
    exact hC
  · have hm : max C 1 = 1 := max_eq_right (by omega)
    rw [hm] at hlen
    exact_mod_cast hlen

/-- C9 witness: capacity 0, empty operation sequence. -/
theorem memoryCache_capacity_witness :
    (((NewMemoryCache 0).applyAll []).entries.length : Int) ≤ max 0 1 ∧
    (∀ k v, (((NewMemoryCache 0).applyAll []).set k v).lookup k = some v) ∧
    ((0 : Int) ≤ 0 → ∀ k v,
      (((NewMemoryCache 0).applyAll []).set k v).entries = [(k, v)]) :=
  memoryCache_capacity 0 []

/-! ### LRU behaviour: per-operation facts -/

namespace MemoryCache

/-- Extract the matched entry behind a successful `lookup`. -/
theorem lookup_some_elim (c : MemoryCache) (k : TileKey) (v : TileBytes)
    (hl : c.lookup k = some v) :
    ∃ e, c.entries.find? (keyIs k) = some e ∧ e.1 = k ∧ e.2 = v := by
  unfold lookup at hl
  cases hfind : c.entries.find? (keyIs k) with
  | none => rw [hfind] at hl; simp at hl
  | some e =>
    rw [hfind] at hl
    simp only [Option.map_some'] at hl
    refine ⟨e, rfl, ?_, by simpa using hl⟩
    have := List.find?_some hfind
    simpa [keyIs] using this

/-- `Get` on a hit returns the stored value, promotes the entry to the
front of the recency list, and only reorders (never adds or drops)
entries. -/
theorem get_promotes (c : MemoryCache) (k : TileKey) (v : TileBytes)
    (hl : c.lookup k = some v) :
    (c.get k).1 = some v ∧
    (c.get k).2.entries.head? = some (k, v) ∧
    (c.get k).2.entries.Perm c.entries := by
  obtain ⟨e, hf, hek, hev⟩ := lookup_some_elim c k v hl
  unfold get
  split
  · rename_i hnone
    rw [hnone] at hf
    cases hf
  · rename_i e' hsome
    rw [hsome] at hf
    have he' : e' = e := Option.some.inj hf
    subst he'
    refine ⟨by rw [hev], by simp [hek, hev], ?_⟩
    exact (perm_cons_eraseP_of_find? (keyIs k) c.entries e' hsome).symm

/-- `Set` on an already-present key replaces the value, promotes the
entry to the front, and preserves the key set and entry count. -/
theorem set_present_promotes (c : MemoryCache) (k : TileKey) (v v₀ : TileBytes)
    (hl : c.lookup k = some v₀) :
    (c.set k v).entries.head? = some (k, v) ∧
    ((c.set k v).entries.map Prod.fst).Perm (c.entries.map Prod.fst) ∧
    (c.set k v).entries.length = c.entries.length := by
  obtain ⟨e, hf, hek, _⟩ := lookup_some_elim c k v₀ hl
  have hany : c.entries.any (keyIs k) = true :=
    List.any_eq_true.mpr ⟨e, List.mem_of_find?_eq_some hf, List.find?_some hf⟩
  have hperm := perm_cons_eraseP_of_find? (keyIs k) c.entries e hf
  unfold set
  rw [if_pos hany]
  refine ⟨rfl, ?_, ?_⟩
  · have hmap := hperm.map Prod.fst
    simp only [List.map_cons] at hmap
    rw [hek] at hmap
    simpa using hmap.symm
  · simpa using hperm.length_eq.symm

/-- `Set` of an absent key when the list has reached capacity removes
the back (least-recently-used) entry and pushes the new one in front. -/
theorem set_new_evicts (c : MemoryCache) (k : TileKey) (v : TileBytes)
    (habs : c.has k = false)
    (hcap : (c.entries.length : Int) ≥ c.maxSize) :
    (c.set k v).entries = (k, v) :: c.entries.dropLast := by
  have habs' : ¬c.entries.any (keyIs k) = true := by
    rw [has] at habs
    simp [habs]
  unfold set
  rw [if_neg habs', if_pos hcap]

theorem maxSize_insertAll (kvs : List (TileKey × TileBytes)) (c : MemoryCache) :
    (c.insertAll kvs).maxSize = c.maxSize := by
  induction kvs generalizing c with
  | nil => rfl
  | cons kv t ih =>
    show ((c.set kv.1 kv.2).insertAll t).maxSize = c.maxSize
    rw [ih, maxSize_set]

/-- Closed form of the state after inserting pairwise-distinct keys
into a fresh cache of capacity `C ≥ 1`: the recency list holds the
last `C` inserted pairs, most recent first. -/
theorem insertAll_entries_of_nodup (C : Int) (hC : 1 ≤ C)
    (kvs : List (TileKey × TileBytes)) (hnd : (kvs.map Prod.fst).Nodup) :
    ((NewMemoryCache C).insertAll kvs).entries = kvs.reverse.take C.toNat := by
  induction kvs using List.reverseRecOn with
  | nil => simp [insertAll, NewMemoryCache]
  | append_singleton l a ih =>
    have hmapnd : (l.map Prod.fst ++ [a.1]).Nodup := by simpa using hnd
    have hndl : (l.map Prod.fst).Nodup := hmapnd.of_append_left
    have hnotin : a.1 ∉ l.map Prod.fst := by
      intro hmem
      exact (List.disjoint_of_nodup_append hmapnd) hmem (by simp)
    have hstep : (NewMemoryCache C).insertAll (l ++ [a]) =
        ((NewMemoryCache C).insertAll l).set a.1 a.2 := by
      simp [insertAll, List.foldl_append]
    have hent := ih hndl
    have hms := maxSize_insertAll l (NewMemoryCache C)
    have habs : ¬((NewMemoryCache C).insertAll l).entries.any (keyIs a.1) = true := by
      rw [hent]
      simp only [List.any_eq_true, not_exists, not_and]
      intro e he
      have hel : e ∈ l := by
        have := List.mem_of_mem_take he
        simpa using this
      have he1 : e.1 ∈ l.map Prod.fst := List.mem_map_of_mem Prod.fst hel
      simp only [keyIs, beq_iff_eq]
      intro heq
      rw [heq] at he1
      exact hnotin he1
    obtain ⟨m, hm⟩ : ∃ m : Nat, C.toNat = m + 1 :=
      ⟨C.toNat - 1, by omega⟩
    have hmC : ((m : Int) + 1) = C := by
      have : (C.toNat : Int) = C := Int.toNat_of_nonneg (by omega)
      omega
    have hlenent : ((NewMemoryCache C).insertAll l).entries.length =
        min (m + 1) l.length := by
      rw [hent, List.length_take, List.length_reverse, hm]
    rw [hstep]
    unfold set
    rw [if_neg habs]
    simp only [hms]
    show _ = ((l ++ [a]).reverse.take C.toNat)
    rw [List.reverse_append, List.reverse_singleton, List.singleton_append, hm,
      List.take_succ_cons]
    split
    · rename_i hge
      rw [hlenent] at hge
      have hl_ge : m + 1 ≤ l.length := by
        rcases Nat.le_total (m + 1) l.length with hle | hle
        · exact hle
        · rw [Nat.min_eq_right hle] at hge
          have : ((m : Int) + 1) ≤ (l.length : Int) := by
            simp only [NewMemoryCache] at hge
            omega
          omega
      have hminlen : min (m + 1) l.length = m + 1 := Nat.min_eq_left hl_ge
      rw [hent, hm, List.dropLast_eq_take, List.length_take,
        List.length_reverse, hminlen, List.take_take]
      have : min (m + 1 - 1) (m + 1) = m := by omega
      rw [this]
    · rename_i hlt
      rw [hlenent] at hlt
      push_neg at hlt
      have hl_lt : l.length < m + 1 := by
        simp only [NewMemoryCache] at hlt
        rcases Nat.le_total (m + 1) l.length with hle | hle
        · rw [Nat.min_eq_left hle] at hlt
          omega
        · rw [Nat.min_eq_right hle] at hlt
          omega
      rw [hent, hm]
      have h1 : l.reverse.take (m + 1) = l.reverse :=
        List.take_of_length_le (by simp; omega)
      have h2 : l.reverse.take m = l.reverse :=
        List.take_of_length_le (by simp; omega)
      rw [h1, h2]

/-- The state reached by `Get` on a hit, expressed through the matched
entry. -/
theorem get_entries_of_find? (c : MemoryCache) (k : TileKey)
    (e : TileKey × TileBytes)
    (hf : c.entries.find? (keyIs k) = some e) :
    (c.get k).2.entries = (e.1, e.2) :: c.entries.eraseP (keyIs k) := by
  unfold get
  split
  · rename_i hnone
    rw [hnone] at hf
    cases hf
  · rename_i e' hsome
    rw [hsome] at hf
    have he' : e' = e := Option.some.inj hf
    subst he'
    rfl

/-- Scenario: inserting `C + 1` pairwise-distinct keys into a fresh
capacity-`C` cache (with no intervening reads) evicts exactly the
first-inserted key; the remaining `C` keys are all present. -/
theorem lru_overflow_scenario (C : Nat) (hC : 1 ≤ C)
    (kv₀ : TileKey × TileBytes) (rest : List (TileKey × TileBytes))
    (hlen : rest.length = C) (hnd : ((kv₀ :: rest).map Prod.fst).Nodup) :
    ((NewMemoryCache C).insertAll (kv₀ :: rest)).has kv₀.1 = false ∧
    ∀ kv ∈ rest, ((NewMemoryCache C).insertAll (kv₀ :: rest)).has kv.1 = true := by
  have hC' : (1 : Int) ≤ (C : Int) := by exact_mod_cast hC
  have hent := insertAll_entries_of_nodup (C : Int) hC' (kv₀ :: rest) hnd
  rw [List.reverse_cons, Int.toNat_natCast] at hent
  have htake : (rest.reverse ++ [kv₀]).take C = rest.reverse :=
    List.take_left' (by simpa using hlen)
  rw [htake] at hent
  constructor
  · rw [has, hent, List.any_eq_false]
    intro e he
    rw [List.mem_reverse] at he
    have he1 : e.1 ∈ rest.map Prod.fst := List.mem_map_of_mem Prod.fst he
    have hk0 : kv₀.1 ∉ rest.map Prod.fst := by
      simp only [List.map_cons, List.nodup_cons] at hnd
      exact hnd.1
    simp only [keyIs, beq_iff_eq]
    intro heq
    rw [heq] at he1
    exact hk0 he1
  · intro kv hkv
    rw [has, hent, List.any_eq_true]
    exact ⟨kv, List.mem_reverse.mpr hkv, by simp [keyIs]⟩

/-- Scenario (capacity at least 2): insert `C` distinct keys, `Get` the
oldest, then insert one more fresh key — the re-read key survives and
the second-oldest is evicted instead. -/
theorem lru_get_protects_scenario (C : Nat) (hC : 2 ≤ C)
    (kv₀ kv₁ : TileKey × TileBytes) (rest : List (TileKey × TileBytes))
    (hlen : (kv₀ :: kv₁ :: rest).length = C)
    (hnd : ((kv₀ :: kv₁ :: rest).map Prod.fst).Nodup)
    (knew : TileKey) (vnew : TileBytes)
    (hfresh : knew ∉ (kv₀ :: kv₁ :: rest).map Prod.fst) :
    ((((NewMemoryCache C).insertAll
        (kv₀ :: kv₁ :: rest)).get kv₀.1).2.set knew vnew).has kv₀.1 = true ∧
    ((((NewMemoryCache C).insertAll
        (kv₀ :: kv₁ :: rest)).get kv₀.1).2.set knew vnew).has kv₁.1 = false ∧
    ((((NewMemoryCache C).insertAll
        (kv₀ :: kv₁ :: rest)).get kv₀.1).2.set knew vnew).has knew = true := by
  have hC' : (1 : Int) ≤ (C : Int) := by exact_mod_cast le_trans (by norm_num) hC
  have hent := insertAll_entries_of_nodup (C : Int) hC' (kv₀ :: kv₁ :: rest) hnd
  rw [Int.toNat_natCast] at hent
  have hrevlen : (kv₀ :: kv₁ :: rest).reverse.length = C := by
    rw [List.length_reverse]
    exact hlen
  rw [List.take_of_length_le (le_of_eq hrevlen)] at hent
  have hshape : (kv₀ :: kv₁ :: rest).reverse =
      (rest.reverse ++ [kv₁]) ++ [kv₀] := by
    simp [List.reverse_cons, List.append_assoc]
  rw [hshape] at hent
  -- distinctness of the keys involved
  have hnd' : kv₀.1 ∉ (kv₁ :: rest).map Prod.fst ∧
      kv₁.1 ∉ rest.map Prod.fst := by
    simp only [List.map_cons, List.nodup_cons] at hnd
    exact ⟨hnd.1, hnd.2.1⟩
  have hk01 : kv₁.1 ≠ kv₀.1 := by
    intro heq
    exact hnd'.1 (by simp [← heq])
  have hrest0 : ∀ e ∈ rest, e.1 ≠ kv₀.1 := by
    intro e he heq
    apply hnd'.1
    simp only [List.map_cons, List.mem_cons]
    right
    exact heq ▸ List.mem_map_of_mem Prod.fst he
  -- the prefix before the re-read key contains no match
  have hpre : ∀ b ∈ rest.reverse ++ [kv₁], ¬keyIs kv₀.1 b = true := by
    intro b hb
    simp only [List.mem_append, List.mem_reverse, List.mem_singleton] at hb
    simp only [keyIs, beq_iff_eq]
    rcases hb with hb | rfl
    · exact hrest0 b hb
    · exact hk01
  have hfind : ((NewMemoryCache (C : Int)).insertAll
      (kv₀ :: kv₁ :: rest)).entries.find? (keyIs kv₀.1) = some kv₀ := by
    rw [hent, List.find?_append, List.find?_eq_none.mpr hpre]
    simp [keyIs]
  have hget := get_entries_of_find? _ kv₀.1 kv₀ hfind
  have herase : ((rest.reverse ++ [kv₁]) ++ [kv₀]).eraseP (keyIs kv₀.1) =
      rest.reverse ++ [kv₁] := by
    rw [List.eraseP_append_right _ hpre]
    simp [keyIs]
  rw [hent, herase] at hget
  -- the fresh key is absent from the promoted state
  have habs : (((NewMemoryCache (C : Int)).insertAll
      (kv₀ :: kv₁ :: rest)).get kv₀.1).2.entries.any (keyIs knew) = false := by
    rw [hget, List.any_eq_false]
    intro e he
    simp only [List.cons_append, List.mem_cons, List.mem_append,
      List.mem_reverse, List.mem_singleton, List.not_mem_nil, or_false] at he
    simp only [keyIs, beq_iff_eq]
    intro heq
    apply hfresh
    rcases he with rfl | he | rfl
    · simp [← heq]
    · simp only [List.map_cons, List.mem_cons]
      right; right
      exact heq ▸ List.mem_map_of_mem Prod.fst he
    · simp [← heq]
  have hms : (((NewMemoryCache (C : Int)).insertAll
      (kv₀ :: kv₁ :: rest)).get kv₀.1).2.maxSize = (C : Int) := by
    rw [maxSize_get, maxSize_insertAll]
    rfl
  have hlen2 : (((NewMemoryCache (C : Int)).insertAll
      (kv₀ :: kv₁ :: rest)).get kv₀.1).2.entries.length = C := by
    have happlen : (rest.reverse ++ [kv₁]).length = rest.length + 1 := by simp
    rw [hget, List.length_cons, happlen]
    simp only [List.length_cons] at hlen
    omega
  have hset : ((((NewMemoryCache (C : Int)).insertAll
      (kv₀ :: kv₁ :: rest)).get kv₀.1).2.set knew vnew).entries =
      (knew, vnew) :: (kv₀.1, kv₀.2) :: rest.reverse := by
    unfold set
    rw [if_neg (by rw [habs]; simp), if_pos (by rw [hms, hlen2])]
    rw [hget]
    have : (kv₀.1, kv₀.2) :: (rest.reverse ++ [kv₁]) =
        ((kv₀.1, kv₀.2) :: rest.reverse) ++ [kv₁] := by simp
    rw [this, List.dropLast_concat]
  refine ⟨?_, ?_, ?_⟩
  · rw [has, hset, List.any_eq_true]
    exact ⟨(kv₀.1, kv₀.2), by simp, by simp [keyIs]⟩
  · rw [has, hset, List.any_eq_false]
    intro e he
    simp only [List.mem_cons, List.mem_reverse] at he
    simp only [keyIs, beq_iff_eq]
    intro heq
    rcases he with rfl | rfl | he
    · exact hfresh (by simp [← heq])
    · exact hk01 heq.symm  -- e = (kv₀.1, kv₀.2): heq : kv₀.1 = kv₁.1
    · exact hnd'.2 (heq ▸ List.mem_map_of_mem Prod.fst he)
  · rw [has, hset, List.any_eq_true]
    exact ⟨(knew, vnew), by simp, by simp [keyIs]⟩

end MemoryCache

/-- C4 (amended): the bounded in-memory cache is a strict LRU — `Get`
promotes on hit, `Set` on a present key replaces the value and
promotes, `Set` of a new key at capacity evicts the back entry — and
for every capacity `C ≥ 1` inserting `C + 1` distinct keys evicts
exactly the first; for every `C ≥ 2` re-reading the oldest of `C`
inserted keys protects it, and the next insert evicts the
second-oldest instead.  (At `C = 1` the re-read key is itself the
least-recently-used entry and is evicted, see the counterexample.) -/
theorem memoryCache_lru_spec (C : Nat) (hC : 1 ≤ C) :
    (∀ (c : MemoryCache) (k : TileKey) (v : TileBytes), c.lookup k = some v →
      (c.get k).1 = some v ∧ (c.get k).2.entries.head? = some (k, v) ∧
      (c.get k).2.entries.Perm c.entries) ∧
    (∀ (c : MemoryCache) (k : TileKey) (v v₀ : TileBytes), c.lookup k = some v₀ →
      (c.set k v).entries.head? = some (k, v) ∧
      ((c.set k v).entries.map Prod.fst).Perm (c.entries.map Prod.fst) ∧
      (c.set k v).entries.length = c.entries.length) ∧
    (∀ (c : MemoryCache) (k : TileKey) (v : TileBytes), c.has k = false →
      (c.entries.length : Int) ≥ c.maxSize →
      (c.set k v).entries = (k, v) :: c.entries.dropLast) ∧
    (∀ (kv₀ : TileKey × TileBytes) (rest : List (TileKey × TileBytes)),
      rest.length = C → ((kv₀ :: rest).map Prod.fst).Nodup →
      ((NewMemoryCache (C : Int)).insertAll (kv₀ :: rest)).has kv₀.1 = false ∧
      ∀ kv ∈ rest,
        ((NewMemoryCache (C : Int)).insertAll (kv₀ :: rest)).has kv.1 = true) ∧
    (2 ≤ C → ∀ (kv₀ kv₁ : TileKey × TileBytes)
      (rest : List (TileKey × TileBytes)) (knew : TileKey) (vnew : TileBytes),
      (kv₀ :: kv₁ :: rest).length = C →
      ((kv₀ :: kv₁ :: rest).map Prod.fst).Nodup →
      knew ∉ (kv₀ :: kv₁ :: rest).map Prod.fst →
      ((((NewMemoryCache (C : Int)).insertAll
          (kv₀ :: kv₁ :: rest)).get kv₀.1).2.set knew vnew).has kv₀.1 = true ∧
      ((((NewMemoryCache (C : Int)).insertAll
          (kv₀ :: kv₁ :: rest)).get kv₀.1).2.set knew vnew).has kv₁.1 = false ∧
      ((((NewMemoryCache (C : Int)).insertAll
          (kv₀ :: kv₁ :: rest)).get kv₀.1).2.set knew vnew).has knew = true) :=
  ⟨fun c k v hl => MemoryCache.get_promotes c k v hl,
   fun c k v v₀ hl => MemoryCache.set_present_promotes c k v v₀ hl,
   fun c k v habs hcap => MemoryCache.set_new_evicts c k v habs hcap,
   fun kv₀ rest hlen hnd => MemoryCache.lru_overflow_scenario C hC kv₀ rest hlen hnd,
   fun hC2 kv₀ kv₁ rest knew vnew hlen hnd hfresh =>
     MemoryCache.lru_get_protects_scenario C hC2 kv₀ kv₁ rest hlen hnd knew vnew hfresh⟩

/-- Concrete tile keys for the capacity-1 counterexample. -/
def tkA : TileKey :=
  { imageID := "img", tileEdge := 256, maxZoomField := 3,
    z := 0, x := 0, y := 0, format := "jpeg" }

def tkB : TileKey :=
  { imageID := "img", tileEdge := 256, maxZoomField := 3,
    z := 0, x := 1, y := 0, format := "jpeg" }

/-- C4 counterexample: with capacity `C = 1` (allowed by the claim's
"for every C ≥ 1"), insert one key, re-read it, then insert a fresh
key: the re-read oldest key does *not* survive — it is evicted, since
it is itself the least-recently-used entry. -/
theorem memoryCache_lru_counterexample :
    ((((NewMemoryCache 1).insertAll [(tkA, [1])]).get tkA).2.set tkB [2]).has tkA
      = false ∧
    ((((NewMemoryCache 1).insertAll [(tkA, [1])]).get tkA).2.set tkB [2]).has tkB
      = true := by
  constructor <;> rfl

/-- C4 witness: the LRU specification instantiated at capacity 2. -/
theorem memoryCache_lru_spec_witness :
    1 ≤ 2 ∧
    ((∀ (c : MemoryCache) (k : TileKey) (v : TileBytes), c.lookup k = some v →
      (c.get k).1 = some v ∧ (c.get k).2.entries.head? = some (k, v) ∧
      (c.get k).2.entries.Perm c.entries) ∧
    (∀ (c : MemoryCache) (k : TileKey) (v v₀ : TileBytes), c.lookup k = some v₀ →
      (c.set k v).entries.head? = some (k, v) ∧
      ((c.set k v).entries.map Prod.fst).Perm (c.entries.map Prod.fst) ∧
      (c.set k v).entries.length = c.entries.length) ∧
    (∀ (c : MemoryCache) (k : TileKey) (v : TileBytes), c.has k = false →
      (c.entries.length : Int) ≥ c.maxSize →
      (c.set k v).entries = (k, v) :: c.entries.dropLast) ∧
    (∀ (kv₀ : TileKey × TileBytes) (rest : List (TileKey × TileBytes)),
      rest.length = 2 → ((kv₀ :: rest).map Prod.fst).Nodup →
      ((NewMemoryCache ((2 : Nat) : Int)).insertAll (kv₀ :: rest)).has kv₀.1 = false ∧
      ∀ kv ∈ rest,
        ((NewMemoryCache ((2 : Nat) : Int)).insertAll (kv₀ :: rest)).has kv.1 = true) ∧
    (2 ≤ 2 → ∀ (kv₀ kv₁ : TileKey × TileBytes)
      (rest : List (TileKey × TileBytes)) (knew : TileKey) (vnew : TileBytes),
      (kv₀ :: kv₁ :: rest).length = 2 →
      ((kv₀ :: kv₁ :: rest).map Prod.fst).Nodup →
      knew ∉ (kv₀ :: kv₁ :: rest).map Prod.fst →
      ((((NewMemoryCache ((2 : Nat) : Int)).insertAll
          (kv₀ :: kv₁ :: rest)).get kv₀.1).2.set knew vnew).has kv₀.1 = true ∧
      ((((NewMemoryCache ((2 : Nat) : Int)).insertAll
          (kv₀ :: kv₁ :: rest)).get kv₀.1).2.set knew vnew).has kv₁.1 = false ∧
      ((((NewMemoryCache ((2 : Nat) : Int)).insertAll
          (kv₀ :: kv₁ :: rest)).get kv₀.1).2.set knew vnew).has knew = true)) :=
  ⟨by decide, memoryCache_lru_spec 2 (by decide)⟩

/-! ## Persistent file-backed cache (src/internal/cache/file_cache.go) -/

/-- The cache directory's file system, as a map from paths to file
contents (`none` = no file at that path). -/
def FS : Type := String → Option TileBytes

/-- Point update of the file system (create/overwrite/remove one path). -/
def fsSet (fs : FS) (p : String) (v : Option TileBytes) : FS :=
  fun q => if q = p then v else fs q

/-- `buildFilePath` (file_cache.go lines 29-34):
`{cacheDir}/{imageID}_{tileSize}_{maxZoom}/{z}/{x}_{y}.{format}`;
`filepath.Join` concatenates the components with `/`. -/
def buildFilePath (cacheDir : String) (key : TileKey) : String :=
  cacheDir ++ "/" ++ key.imageID ++ "_" ++ toString key.tileEdge ++ "_" ++
    toString key.maxZoomField ++ "/" ++ toString key.z ++ "/" ++
    toString key.x ++ "_" ++ toString key.y ++ "." ++ key.format

/-- The on-disk layout the spec promises, verbatim from its words:
"a tile is addressable at a path built from
`{imageId}_{tileEdge}_{maxZoom}/{zoom}/{column}_{row}.{format}`"
under the cache directory. -/
def specTilePath (cacheDir : String) (key : TileKey) : String :=
  cacheDir ++ "/" ++
    (key.imageID ++ "_" ++ toString key.tileEdge ++ "_" ++
      toString key.maxZoomField) ++ "/" ++
    toString key.z ++ "/" ++
    (toString key.x ++ "_" ++ toString key.y ++ "." ++ key.format)

/-- Where `Set` (file_cache.go lines 50-70) may stop: directory
creation fails, the temp-file write fails (possibly leaving a
truncated temp file, as `os.WriteFile` may), the rename fails (the
code then removes the temp file), or everything succeeds. -/
inductive FileSetOutcome where
  | mkdirFail
  | writeFail (truncated : TileBytes)
  | renameFail
  | success
deriving DecidableEq, Repr

namespace FileCache

/-- `Set` (file_cache.go lines 50-70): write `value` to the temporary
sibling `path + ".tmp"`, then rename it onto `path`; on any failure
return (void — no error reaches the caller), touching only the temp
path. -/
def set (cacheDir : String) (fs : FS) (key : TileKey) (value : TileBytes)
    (oc : FileSetOutcome) : FS :=
  let path := buildFilePath cacheDir key
  let tmp := path ++ ".tmp"
  match oc with
  | FileSetOutcome.mkdirFail => fs
  | FileSetOutcome.writeFail t => fsSet fs tmp (some t)
  | FileSetOutcome.renameFail => fsSet (fsSet fs tmp (some value)) tmp none
  | FileSetOutcome.success =>
      fsSet (fsSet (fsSet fs tmp (some value)) tmp none) path (some value)

/-- `Get` (file_cache.go lines 36-48): read the file at the built path;
a read error is a miss. -/
def get (cacheDir : String) (fs : FS) (key : TileKey) : Option TileBytes :=
  fs (buildFilePath cacheDir key)

end FileCache

/-- Appending the non-empty `".tmp"` suffix changes the path. -/
theorem tmp_path_ne (p : String) : p ++ ".tmp" ≠ p := by
  intro h
  have hlen := congrArg String.length h
  rw [String.length_append] at hlen
  have h4 : ".tmp".length = 4 := rfl
  omega

/-- C5: the file cache stores a tile at
`{cacheDir}/{imageId}_{tileEdge}_{maxZoom}/{zoom}/{column}_{row}.{format}`
(the code's path equals the spec's layout); `Set` goes through a
temporary sibling file and a rename, so on any failure before the
rename completes the final path is untouched — in particular, if no
tile existed there, a subsequent `Get` misses cleanly — the failure is
not surfaced (the operation is total), and a successful `Set` makes
`Get` return exactly the stored bytes. -/
theorem fileCache_atomic_set (cacheDir : String) (key : TileKey)
    (value : TileBytes) :
    (buildFilePath cacheDir key = specTilePath cacheDir key) ∧
    (∀ (fs : FS) (oc : FileSetOutcome), oc ≠ FileSetOutcome.success →
      FileCache.set cacheDir fs key value oc (buildFilePath cacheDir key) =
        fs (buildFilePath cacheDir key)) ∧
    (∀ (fs : FS) (oc : FileSetOutcome), oc ≠ FileSetOutcome.success →
      fs (buildFilePath cacheDir key) = none →
      FileCache.get cacheDir (FileCache.set cacheDir fs key value oc) key = none) ∧
    (∀ fs : FS,
      FileCache.get cacheDir
        (FileCache.set cacheDir fs key value FileSetOutcome.success) key =
        some value) := by
  have hne : buildFilePath cacheDir key ++ ".tmp" ≠ buildFilePath cacheDir key :=
    tmp_path_ne _
  refine ⟨?_, ?_, ?_, ?_⟩
  · simp [buildFilePath, specTilePath, String.append_assoc]
  · intro fs oc hoc
    cases oc with
    | mkdirFail => rfl
    | writeFail t => simp only [FileCache.set, fsSet, if_neg hne.symm]
    | renameFail => simp only [FileCache.set, fsSet, if_neg hne.symm]
    | success => exact absurd rfl hoc
  · intro fs oc hoc hfresh
    cases oc with
    | mkdirFail => exact hfresh
    | writeFail t =>
      simp only [FileCache.get, FileCache.set, fsSet, if_neg hne.symm]
      exact hfresh
    | renameFail =>
      simp only [FileCache.get, FileCache.set, fsSet, if_neg hne.symm]
      exact hfresh
    | success => exact absurd rfl hoc
  · intro fs
    simp [FileCache.get, FileCache.set, fsSet]

/-- C5 witness: the atomicity statement at a concrete cache dir and key. -/
theorem fileCache_atomic_set_witness :
    (buildFilePath "/data/cache" tkA = specTilePath "/data/cache" tkA) ∧
    (∀ (fs : FS) (oc : FileSetOutcome), oc ≠ FileSetOutcome.success →
      FileCache.set "/data/cache" fs tkA [7] oc (buildFilePath "/data/cache" tkA) =
        fs (buildFilePath "/data/cache" tkA)) ∧
    (∀ (fs : FS) (oc : FileSetOutcome), oc ≠ FileSetOutcome.success →
      fs (buildFilePath "/data/cache" tkA) = none →
      FileCache.get "/data/cache"
        (FileCache.set "/data/cache" fs tkA [7] oc) tkA = none) ∧
    (∀ fs : FS,
      FileCache.get "/data/cache"
        (FileCache.set "/data/cache" fs tkA [7] FileSetOutcome.success) tkA =
        some [7]) :=
  fileCache_atomic_set "/data/cache" tkA [7]

/-! ## Content tag (`generateETag`, renderer.go lines 162-166)

`generateETag` formats the key as
`{imageID}_{tileSize}_{maxZoom}/{z}/{x}/{y}.{format}`, hashes it with
SHA-256 and keeps the first 16 hex characters.  SHA-256 is embedded
below over byte lists with 32-bit words as `Nat % 2^32`. -/

/-- Truncate to a 32-bit word. -/
def w32 (n : Nat) : Nat := n % 4294967296

/-- 32-bit right rotation. -/
def rotr32 (n x : Nat) : Nat := w32 ((x >>> n) ||| (x <<< (32 - n)))

def sha256ch (x y z : Nat) : Nat := w32 ((x &&& y) ^^^ ((x ^^^ 4294967295) &&& z))

def sha256maj (x y z : Nat) : Nat := w32 ((x &&& y) ^^^ (x &&& z) ^^^ (y &&& z))

def bigS0 (x : Nat) : Nat := w32 (rotr32 2 x ^^^ rotr32 13 x ^^^ rotr32 22 x)

def bigS1 (x : Nat) : Nat := w32 (rotr32 6 x ^^^ rotr32 11 x ^^^ rotr32 25 x)

def smallS0 (x : Nat) : Nat := w32 (rotr32 7 x ^^^ rotr32 18 x ^^^ (x >>> 3))

def smallS1 (x : Nat) : Nat := w32 (rotr32 17 x ^^^ rotr32 19 x ^^^ (x >>> 10))

/-- The 64 SHA-256 round constants (decimal). -/
def sha256K : List Nat :=
  [1116352408, 1899447441, 3049323471, 3921009573, 961987163,
   1508970993, 2453635748, 2870763221, 3624381080, 310598401,
   607225278, 1426881987, 1925078388, 2162078206, 2614888103,
   3248222580, 3835390401, 4022224774, 264347078, 604807628,
   770255983, 1249150122, 1555081692, 1996064986, 2554220882,
   2821834349, 2952996808, 3210313671, 3336571891, 3584528711,
   113926993, 338241895, 666307205, 773529912, 1294757372,
   1396182291, 1695183700, 1986661051, 2177026350, 2456956037,
   2730485921, 2820302411, 3259730800, 3345764771, 3516065817,
   3600352804, 4094571909, 275423344, 430227734, 506948616,
   659060556, 883997877, 958139571, 1322822218, 1537002063,
   1747873779, 1955562222, 2024104815, 2227730452, 2361852424,
   2428436474, 2756734187, 3204031479, 3329325298]

/-- The initial SHA-256 hash value (decimal). -/
def sha256H0 : List Nat :=
  [1779033703, 3144134277, 1013904242, 2773480762,
   1359893119, 2600822924, 528734635, 1541459225]

/-- Big-endian byte expansion of `val` into `nbytes` bytes. -/
def bytesBE (nbytes val : Nat) : List Nat :=
  (List.range nbytes).map (fun i => (val >>> (8 * (nbytes - 1 - i))) % 256)

/-- SHA-256 message padding: append `0x80`, zeros to 56 mod 64 bytes,
then the 64-bit big-endian bit length. -/
def sha256pad (msg : List Nat) : List Nat :=
  let padZeros := (119 - (msg.length % 64)) % 64
  msg ++ [0x80] ++ List.replicate padZeros 0 ++ bytesBE 8 (8 * msg.length)

/-- Group bytes into big-endian 32-bit words. -/
def toWords32 : List Nat → List Nat
  | a :: b :: c :: d :: rest =>
      (((a * 256 + b) * 256 + c) * 256 + d) :: toWords32 rest
  | _ => []

/-- Extend a 16-word block to the 64-word message schedule. -/
def msgSchedule (ws : List Nat) : List Nat :=
  (List.range 48).foldl
    (fun acc _ =>
      let n := acc.length
      acc ++ [w32 (smallS1 (acc.getD (n - 2) 0) + acc.getD (n - 7) 0 +
        smallS0 (acc.getD (n - 15) 0) + acc.getD (n - 16) 0)])
    ws

/-- One round of the SHA-256 compression function on the eight working
variables. -/
def sha256round (vars : List Nat) (kw : Nat × Nat) : List Nat :=
  let a := vars.getD 0 0
  let b := vars.getD 1 0
  let c := vars.getD 2 0
  let d := vars.getD 3 0
  let e := vars.getD 4 0
  let f := vars.getD 5 0
  let g := vars.getD 6 0
  let hh := vars.getD 7 0
  let t1 := w32 (hh + bigS1 e + sha256ch e f g + kw.1 + kw.2)
  let t2 := w32 (bigS0 a + sha256maj a b c)
  [w32 (t1 + t2), a, b, c, w32 (d + t1), e, f, g]

/-- Compress one 16-word block into the hash state. -/
def compressBlock (h : List Nat) (block : List Nat) : List Nat :=
  let final := ((sha256K.zip (msgSchedule block))).foldl sha256round h
  List.zipWith (fun x y => w32 (x + y)) h final

/-- Fold the compression function over all 16-word blocks. -/
def sha256blocks (h : List Nat) (ws : List Nat) : List Nat :=
  if hws : ws = [] then h
  else sha256blocks (compressBlock h (ws.take 16)) (ws.drop 16)
termination_by ws.length
decreasing_by
  have : ws.length ≠ 0 := fun hc => hws (List.eq_nil_of_length_eq_zero hc)
  simp only [List.length_drop]
  omega

/-- SHA-256 digest of a byte list, as 32 bytes. -/
def sha256bytes (msg : List Nat) : List Nat :=
  ((sha256blocks sha256H0 (toWords32 (sha256pad msg))).map (bytesBE 4)).flatten

def hexDigit (n : Nat) : Char :=
  if n < 10 then Char.ofNat (48 + n) else Char.ofNat (87 + n)

def bytesToHex (bs : List Nat) : String :=
  String.mk ((bs.map (fun b => [hexDigit (b / 16), hexDigit (b % 16)])).flatten)

/-- UTF-8 bytes of a string (`[]byte(keyStr)` in Go). -/
def strBytes (s : String) : List Nat :=
  s.toUTF8.toList.map UInt8.toNat

/-- The formatted key string hashed by `generateETag` (renderer.go
line 163): `%s_%d_%d/%d/%d/%d.%s` over the seven key fields. -/
def etagKeyString (key : TileKey) : String :=
  key.imageID ++ "_" ++ toString key.tileEdge ++ "_" ++
    toString key.maxZoomField ++ "/" ++ toString key.z ++ "/" ++
    toString key.x ++ "/" ++ toString key.y ++ "." ++ key.format

/-- `generateETag` (renderer.go lines 162-166): first 16 hex characters
of the SHA-256 of the formatted key string. -/
def generateETag (key : TileKey) : String :=
  (bytesToHex (sha256bytes (strBytes (etagKeyString key)))).take 16

/-! ## `RenderTile` returned data and tag (renderer.go lines 50-160) -/

/-- The collaborators `RenderTile` consults: the catalog, the cache
(`Get` on the tile key), and the codec pipeline (the bytes a full
render of a key would produce). -/
structure RenderContext where
  catalog : String → Option ImageInfo
  cached : TileKey → Option TileBytes
  rendered : TileKey → TileBytes

/-- The cache key `RenderTile` builds (renderer.go lines 56-69):
tile edge fixed at 256 and format fixed at `"jpeg"`. -/
def cacheKeyOf (imageID : String) (maxZoom : Nat) (z x y : Int) : TileKey :=
  { imageID := imageID, tileEdge := 256, maxZoomField := maxZoom,
    z := z, x := x, y := y, format := "jpeg" }

/-- `RenderTile` data/ETag outcome: `none` on failure; on a cache hit
the cached bytes with `generateETag key`; on a miss, if the render
succeeds (`renderClassify = ok`), the rendered bytes with
`generateETag key` — the tag never depends on the payload. -/
def renderTileModel (ctx : RenderContext) (imageID : String) (z x y : Int) :
    Option (TileBytes × String) :=
  match ctx.catalog imageID with
  | none => none
  | some info =>
      let key := cacheKeyOf imageID (calculateMaxZoom info.width info.height) z x y
      match ctx.cached key with
      | some data => some (data, generateETag key)
      | none =>
          if renderClassify info.width info.height z x y = ROutcome.ok then
            some (ctx.rendered key, generateETag key)
          else none

/-- C6: whatever `RenderTile` returns for a known image — from the hit
path or the miss path, whatever the cache holds and whatever bytes the
codec produces — the content tag is `generateETag` of the TileIdentity
alone, so equal identities always yield equal tags and the hit tag
equals the miss tag. -/
theorem renderTile_etag_spec (ctx : RenderContext) (imageID : String)
    (z x y : Int) (info : ImageInfo)
    (hcat : ctx.catalog imageID = some info)
    (data : TileBytes) (etag : String)
    (hres : renderTileModel ctx imageID z x y = some (data, etag)) :
    etag = generateETag
      (cacheKeyOf imageID (calculateMaxZoom info.width info.height) z x y) := by
  cases hcache : ctx.cached
      (cacheKeyOf imageID (calculateMaxZoom info.width info.height) z x y) with
  | some d =>
    simp only [renderTileModel, hcat, hcache, Option.some.injEq,
      Prod.mk.injEq] at hres
    exact hres.2.symm
  | none =>
    by_cases hok : renderClassify info.width info.height z x y = ROutcome.ok
    · simp only [renderTileModel, hcat, hcache, if_pos hok, Option.some.injEq,
        Prod.mk.injEq] at hres
      exact hres.2.symm
    · simp only [renderTileModel, hcat, hcache, if_neg hok] at hres
      exact Option.noConfusion hres

/-- C6 witness: a concrete 512×512 image with a cache hit; the returned
tag is the identity-derived tag. -/
theorem renderTile_etag_spec_witness :
    (RenderContext.mk (fun _ => some (ImageInfo.mk 512 512))
        (fun _ => some [9]) (fun _ => [])).catalog "img" =
      some (ImageInfo.mk 512 512) ∧
    renderTileModel
        (RenderContext.mk (fun _ => some (ImageInfo.mk 512 512))
          (fun _ => some [9]) (fun _ => [])) "img" 0 0 0 =
      some ([9], generateETag (cacheKeyOf "img" (calculateMaxZoom 512 512) 0 0 0)) ∧
    generateETag (cacheKeyOf "img" (calculateMaxZoom 512 512) 0 0 0) =
      generateETag (cacheKeyOf "img" (calculateMaxZoom 512 512) 0 0 0) :=
  ⟨rfl, rfl,
    renderTile_etag_spec
      (RenderContext.mk (fun _ => some (ImageInfo.mk 512 512))
        (fun _ => some [9]) (fun _ => []))
      "img" 0 0 0 (ImageInfo.mk 512 512) rfl [9]
      (generateETag (cacheKeyOf "img" (calculateMaxZoom 512 512) 0 0 0)) rfl⟩

/-! ## `Has` across the three backends (interface.go line 17)

`MemoryCache.Has` is in the sources (part_004 lines 30-36).  The
`Cache` interface declares `Has` for every backend, but the `Has`
implementations of the file-backed and disabled backends are not under
`src/`; they are modelled from the spec below. -/

/-- Modelled from the spec: the file-backed cache's `Has`, missing from
the sources (only the interface declares it).  Per the spec it is a
"lightweight existence check that must not force a full read
(important for the file-backed variant where this should be a
metadata-only check)" — a stat of the tile's path, reading no bytes. -/
def FileCache.hasFile (cacheDir : String) (fs : FS) (key : TileKey) : Bool :=
  (fs (buildFilePath cacheDir key)).isSome

/-- `Get` of the disabled backend (part_003): always misses. -/
def noopGet (_ : TileKey) : Option TileBytes := none

/-- Modelled from the spec: the disabled backend's `Has`, missing from
the sources; the spec says the backend stores nothing and `Get` always
misses, so `Has` reports absence. -/
def noopHas (_ : TileKey) : Bool := false

/-- C7: every backend's `Has` agrees with whether `Get` finds the key:
the in-memory cache's map-membership check, the file cache's path
existence check, and the no-op cache's constant miss. -/
theorem cacheHas_spec (c : MemoryCache) (cacheDir : String) (fs : FS)
    (k : TileKey) :
    (c.has k = true ↔ (c.get k).1.isSome = true) ∧
    (FileCache.hasFile cacheDir fs k = true ↔
      (FileCache.get cacheDir fs k).isSome = true) ∧
    (noopHas k = false ∧ noopGet k = none) := by
  refine ⟨?_, Iff.rfl, rfl, rfl⟩
  unfold MemoryCache.has MemoryCache.get
  cases hf : c.entries.find? (MemoryCache.keyIs k) with
  | none =>
    simp only [List.any_eq_true]
    constructor
    · rintro ⟨e, hmem, hp⟩
      have : (c.entries.find? (MemoryCache.keyIs k)).isSome = true :=
        List.find?_isSome.mpr ⟨e, hmem, hp⟩
      rw [hf] at this
      cases this
    · intro hcon
      simp at hcon
  | some e =>
    simp only [List.any_eq_true]
    constructor
    · intro _
      rfl
    · intro _
      exact ⟨e, List.mem_of_find?_eq_some hf, List.find?_some hf⟩

/-- C7 witness: the agreement at a concrete state of each backend. -/
theorem cacheHas_spec_witness :
    ((NewMemoryCache 1).has tkA = true ↔
      ((NewMemoryCache 1).get tkA).1.isSome = true) ∧
    (FileCache.hasFile "/data/cache" (fun _ => none) tkA = true ↔
      (FileCache.get "/data/cache" (fun _ => none) tkA).isSome = true) ∧
    (noopHas tkA = false ∧ noopGet tkA = none) :=
  cacheHas_spec (NewMemoryCache 1) "/data/cache" (fun _ => none) tkA

/-! ## Fixed rendering parameters (renderer.go lines 56-69 and 128-147) -/

/-- The codec calls the miss path makes after extraction and resizing:
pad (vips `Embed`) when the resized tile is smaller than 256 in either
dimension, then JPEG-encode. -/
inductive CodecCall where
  | embed (originX originY targetW targetH : Nat) (background : List Nat)
  | jpegSave (quality : Nat) (interlace : Bool)
deriving DecidableEq, Repr

/-- Renderer.go lines 128-147 on a tile whose post-resize size is
`rw × rh`: `Embed(0, 0, 256, 256, background #ddd)` exactly when
`rw < 256 || rh < 256`, then `JpegsaveBuffer` with `Q = 82`,
`Interlace = false`. -/
def padEncodeCalls (rw rh : Nat) : List CodecCall :=
  (if rw < 256 || rh < 256 then
    [CodecCall.embed 0 0 256 256 [221, 221, 221]]
  else []) ++ [CodecCall.jpegSave 82 false]

/-- C10: the cache key built by `RenderTile` always carries tile edge
256 and format `"jpeg"`; every successful render ends in a JPEG encode
at quality 82 (non-interlaced); and a resized result smaller than 256
in either dimension is padded to exactly 256 × 256 anchored at the
top-left origin with the fixed background `#ddd` (221, 221, 221),
while a full-size result is not padded at all. -/
theorem renderTile_fixed_params (imageID : String) (mz : Nat) (z x y : Int)
    (rw rh : Nat) :
    (cacheKeyOf imageID mz z x y).tileEdge = 256 ∧
    (cacheKeyOf imageID mz z x y).format = "jpeg" ∧
    (padEncodeCalls rw rh).getLast? = some (CodecCall.jpegSave 82 false) ∧
    (rw < 256 ∨ rh < 256 →
      padEncodeCalls rw rh =
        [CodecCall.embed 0 0 256 256 [221, 221, 221],
         CodecCall.jpegSave 82 false]) ∧
    (256 ≤ rw → 256 ≤ rh → padEncodeCalls rw rh = [CodecCall.jpegSave 82 false]) := by
  refine ⟨rfl, rfl, ?_, ?_, ?_⟩
  · unfold padEncodeCalls
    split <;> rfl
  · intro hsmall
    unfold padEncodeCalls
    have hcond : (rw < 256 || rh < 256) = true := by
      simp only [Bool.or_eq_true, decide_eq_true_eq]
      omega
    rw [if_pos hcond]
    rfl
  · intro hw hh
    unfold padEncodeCalls
    have hcond : ¬(rw < 256 || rh < 256) = true := by
      simp only [Bool.or_eq_true, decide_eq_true_eq]
      omega
    rw [if_neg hcond]
    rfl

/-- C10 witness: the fixed parameters at a concrete identity and a
concrete 156 × 256 resized edge tile (the spec's own example of a
padding trigger). -/
theorem renderTile_fixed_params_witness :
    (cacheKeyOf "img" 6 0 0 0).tileEdge = 256 ∧
    (cacheKeyOf "img" 6 0 0 0).format = "jpeg" ∧
    (padEncodeCalls 156 256).getLast? = some (CodecCall.jpegSave 82 false) ∧
    (156 < 256 ∨ 256 < 256 →
      padEncodeCalls 156 256 =
        [CodecCall.embed 0 0 256 256 [221, 221, 221],
         CodecCall.jpegSave 82 false]) ∧
    (256 ≤ 156 → 256 ≤ 256 → padEncodeCalls 156 256 = [CodecCall.jpegSave 82 false]) :=
  renderTile_fixed_params "img" 6 0 0 0 156 256

/-! ## Warmup scheduler (part_001, `warmupTiles`, lines 124-172)

The Go code walks the catalog, clamps the configured zoom depth to each
image's max zoom, enumerates the tile grid at every zoom, and submits
one render task per tile.  A channel of capacity `W` is acquired
*before* spawning each goroutine (so submission blocks at `W` in-flight
tasks) and released when the task finishes; failures are only logged;
`wg.Wait()` returns once every task has finished.  The scheduler is
embedded as a small-step relation over its abstract state. -/

/-- One warmup render task: image, zoom, column, row. -/
structure WarmupTask where
  imageID : String
  z : Nat
  x : Nat
  y : Nat
deriving DecidableEq, Repr

/-- Tasks enumerated for one image (part_001 lines 141-166): zooms
`0..min levels maxZoom`, and at each zoom the full
`ceil(w/p) × ceil(h/p)` grid, in loop order. -/
def tasksForImage (imageID : String) (info : ImageInfo) (levels : Nat) :
    List WarmupTask :=
  let maxZoom := calculateMaxZoom info.width info.height
  (List.range (min levels maxZoom + 1)).flatMap (fun z =>
    (List.range (tilesAtZoom info.width (pixelsPerTile maxZoom z))).flatMap
      (fun x =>
        (List.range (tilesAtZoom info.height (pixelsPerTile maxZoom z))).map
          (fun y => { imageID := imageID, z := z, x := x, y := y })))

/-- All tasks enumerated over the catalog. -/
def warmupTasks (images : List (String × ImageInfo)) (levels : Nat) :
    List WarmupTask :=
  images.flatMap (fun img => tasksForImage img.1 img.2 levels)

/-- Scheduler state: tasks not yet submitted, tasks in flight (each
holding one of the `W` worker slots), recorded outcomes
(`true` = rendered and cached, `false` = failed and logged), and
whether `warmupTiles` has returned. -/
structure SchedState where
  pending : List WarmupTask
  running : List WarmupTask
  recorded : List (WarmupTask × Bool)
  returned : Bool
deriving DecidableEq, Repr

/-- The initial state: everything enumerated, nothing started. -/
def warmupInit (images : List (String × ImageInfo)) (levels : Nat) : SchedState :=
  { pending := warmupTasks images levels, running := [], recorded := [],
    returned := false }

/-- Small-step semantics of `warmupTiles` with worker bound `W`:
`submit` acquires a worker slot (only possible below `W` in flight —
the channel send blocks otherwise) and starts the next task in loop
order; `complete` finishes any in-flight task, successfully or not,
recording the outcome and releasing its slot; `finish` is
`wg.Wait()` returning, possible only when nothing is pending or in
flight. -/
inductive SchedStep (W : Nat) : SchedState → SchedState → Prop where
  | submit (t : WarmupTask) (rest running : List WarmupTask)
      (recorded : List (WarmupTask × Bool)) :
      running.length < W →
      SchedStep W
        { pending := t :: rest, running := running, recorded := recorded,
          returned := false }
        { pending := rest, running := t :: running, recorded := recorded,
          returned := false }
  | complete (t : WarmupTask) (pending run₁ run₂ : List WarmupTask)
      (recorded : List (WarmupTask × Bool)) (ok : Bool) :
      SchedStep W
        { pending := pending, running := run₁ ++ t :: run₂,
          recorded := recorded, returned := false }
        { pending := pending, running := run₁ ++ run₂,
          recorded := (t, ok) :: recorded, returned := false }
  | finish (recorded : List (WarmupTask × Bool)) :
      SchedStep W
        { pending := [], running := [], recorded := recorded,
          returned := false }
        { pending := [], running := [], recorded := recorded,
          returned := true }

/-- The scheduler invariant: never more than `W` tasks in flight, the
pending/in-flight/recorded tasks always add up to the full enumeration,
and a returned state has nothing pending or in flight. -/
def SchedInv (W : Nat) (total : List WarmupTask) (s : SchedState) : Prop :=
  s.running.length ≤ W ∧
  (s.pending ++ s.running ++ s.recorded.map Prod.fst).Perm total ∧
  (s.returned = true → s.pending = [] ∧ s.running = [])

theorem schedInv_init (W : Nat) (images : List (String × ImageInfo))
    (levels : Nat) :
    SchedInv W (warmupTasks images levels) (warmupInit images levels) := by
  refine ⟨by simp [warmupInit], by simp [warmupInit], by simp [warmupInit]⟩

theorem schedInv_step (W : Nat) (total : List WarmupTask) (s s' : SchedState)
    (hinv : SchedInv W total s) (hstep : SchedStep W s s') :
    SchedInv W total s' := by
  obtain ⟨hW, hperm, hret⟩ := hinv
  cases hstep with
  | submit t rest running recorded hlt =>
    refine ⟨by simpa using hlt, ?_, by simp⟩
    simp only at hperm ⊢
    refine List.Perm.trans ?_ hperm
    have h1 : rest ++ (t :: running) ++ recorded.map Prod.fst =
        rest ++ t :: (running ++ recorded.map Prod.fst) := by
      simp [List.append_assoc]
    have h2 : (t :: rest) ++ running ++ recorded.map Prod.fst =
        t :: (rest ++ (running ++ recorded.map Prod.fst)) := by
      simp [List.append_assoc]
    rw [h1, h2]
    exact List.perm_middle
  | complete t pending run₁ run₂ recorded ok =>
    refine ⟨?_, ?_, by simp⟩
    · simp only [List.length_append] at hW ⊢
      simp only [List.length_cons] at hW
      omega
    · simp only at hperm ⊢
      have hA : (pending ++ (run₁ ++ run₂) ++
          ((t, ok) :: recorded).map Prod.fst).Perm
          (t :: (pending ++ (run₁ ++ run₂) ++ recorded.map Prod.fst)) := by
        have h1 : pending ++ (run₁ ++ run₂) ++
            ((t, ok) :: recorded).map Prod.fst =
            (pending ++ (run₁ ++ run₂)) ++ t :: recorded.map Prod.fst := by
          simp
        rw [h1]
        exact List.perm_middle
      have hB : (pending ++ (run₁ ++ t :: run₂) ++ recorded.map Prod.fst).Perm
          (t :: (pending ++ (run₁ ++ run₂) ++ recorded.map Prod.fst)) := by
        have h2 : pending ++ (run₁ ++ t :: run₂) ++ recorded.map Prod.fst =
            (pending ++ run₁) ++ t :: (run₂ ++ recorded.map Prod.fst) := by
          simp
        rw [h2]
        refine List.perm_middle.trans ?_
        apply List.Perm.cons
        have h3 : (pending ++ run₁) ++ (run₂ ++ recorded.map Prod.fst) =
            (pending ++ (run₁ ++ run₂)) ++ recorded.map Prod.fst := by
          simp
        rw [h3]
      exact hA.trans (hB.symm.trans hperm)
  | finish recorded =>
    exact ⟨by simpa using hW, by simpa using hperm, fun _ => ⟨rfl, rfl⟩⟩

theorem schedInv_reach (W : Nat) (images : List (String × ImageInfo))
    (levels : Nat) (s : SchedState)
    (hreach : Relation.ReflTransGen (SchedStep W) (warmupInit images levels) s) :
    SchedInv W (warmupTasks images levels) s := by
  induction hreach with
  | refl => exact schedInv_init W images levels
  | tail hsteps hstep ih => exact schedInv_step W _ _ _ ih hstep

/-- Every in-flight task can be completed (here: recorded as failed),
emptying the running list. -/
theorem sched_drain (W : Nat) (running : List WarmupTask) :
    ∀ (pending : List WarmupTask) (recorded : List (WarmupTask × Bool)),
    ∃ recorded', Relation.ReflTransGen (SchedStep W)
      { pending := pending, running := running, recorded := recorded,
        returned := false }
      { pending := pending, running := [], recorded := recorded',
        returned := false } := by
  induction running with
  | nil => exact fun pending recorded => ⟨recorded, Relation.ReflTransGen.refl⟩
  | cons t rest ih =>
    intro pending recorded
    obtain ⟨recorded', hrest⟩ := ih pending ((t, false) :: recorded)
    refine ⟨recorded', Relation.ReflTransGen.head ?_ hrest⟩
    exact SchedStep.complete t pending [] rest recorded false

/-- Every pending task can be submitted and completed in turn (worker
bound `W ≥ 1`), emptying the pending list. -/
theorem sched_flush (W : Nat) (hW : 1 ≤ W) (pending : List WarmupTask) :
    ∀ recorded : List (WarmupTask × Bool),
    ∃ recorded', Relation.ReflTransGen (SchedStep W)
      { pending := pending, running := [], recorded := recorded,
        returned := false }
      { pending := [], running := [], recorded := recorded',
        returned := false } := by
  induction pending with
  | nil => exact fun recorded => ⟨recorded, Relation.ReflTransGen.refl⟩
  | cons t rest ih =>
    intro recorded
    obtain ⟨recorded', htail⟩ := ih ((t, false) :: recorded)
    refine ⟨recorded', Relation.ReflTransGen.head
      (SchedStep.submit t rest [] recorded (by simpa using hW))
      (Relation.ReflTransGen.head ?_ htail)⟩
    exact SchedStep.complete t rest [] [] recorded false

/-- C8: over every run of the warmup scheduler with worker bound
`W ≥ 1`, every reachable state has at most `W` tasks in flight; when
exactly `W` are in flight no step can submit (the pending list cannot
shrink — submission blocks until a completion); the scheduler returns
only with every enumerated tile recorded (rendered or failed — the
recorded tasks are exactly the enumeration); and from every reachable
state the returned state stays reachable even if every remaining task
fails, so individual failures never abort the batch. -/
theorem warmup_scheduler_spec (W : Nat) (hW : 1 ≤ W)
    (images : List (String × ImageInfo)) (levels : Nat) (s : SchedState)
    (hreach : Relation.ReflTransGen (SchedStep W) (warmupInit images levels) s) :
    s.running.length ≤ W ∧
    (s.running.length = W → ∀ s', SchedStep W s s' → s'.pending = s.pending) ∧
    (s.returned = true →
      (s.recorded.map Prod.fst).Perm (warmupTasks images levels)) ∧
    (∃ s', Relation.ReflTransGen (SchedStep W) s s' ∧ s'.returned = true) := by
  obtain ⟨hlen, hperm, hret⟩ := schedInv_reach W images levels s hreach
  refine ⟨hlen, ?_, ?_, ?_⟩
  · intro hfull s' hstep
    cases hstep with
    | submit t rest running recorded hlt =>
      exfalso
      simp only at hfull
      omega
    | complete t pending run₁ run₂ recorded ok => rfl
    | finish recorded => rfl
  · intro hretd
    obtain ⟨hp, hr⟩ := hret hretd
    rw [hp, hr] at hperm
    simpa using hperm
  · obtain ⟨pending, running, recorded, returned⟩ := s
    cases returned with
    | true => exact ⟨_, Relation.ReflTransGen.refl, rfl⟩
    | false =>
      obtain ⟨rec1, h1⟩ := sched_drain W running pending recorded
      obtain ⟨rec2, h2⟩ := sched_flush W hW pending rec1
      exact ⟨SchedState.mk [] [] rec2 true,
        (h1.trans h2).tail (SchedStep.finish rec2), rfl⟩

/-- C8 witness: worker bound 1, one 512×512 image, zoom depth 0, at the
initial state. -/
theorem warmup_scheduler_spec_witness :
    1 ≤ 1 ∧
    ((warmupInit [("img", ImageInfo.mk 512 512)] 0).running.length ≤ 1 ∧
    ((warmupInit [("img", ImageInfo.mk 512 512)] 0).running.length = 1 →
      ∀ s', SchedStep 1 (warmupInit [("img", ImageInfo.mk 512 512)] 0) s' →
      s'.pending = (warmupInit [("img", ImageInfo.mk 512 512)] 0).pending) ∧
    ((warmupInit [("img", ImageInfo.mk 512 512)] 0).returned = true →
      ((warmupInit [("img", ImageInfo.mk 512 512)] 0).recorded.map
        Prod.fst).Perm (warmupTasks [("img", ImageInfo.mk 512 512)] 0)) ∧
    (∃ s', Relation.ReflTransGen (SchedStep 1)
        (warmupInit [("img", ImageInfo.mk 512 512)] 0) s' ∧
      s'.returned = true)) :=
  ⟨by decide,
    warmup_scheduler_spec 1 (by decide) [("img", ImageInfo.mk 512 512)] 0
      (warmupInit [("img", ImageInfo.mk 512 512)] 0) Relation.ReflTransGen.refl⟩

end Gigaview
